import Mathlib

/-!
Verification of the scalar autograd engine and the minimal GPT built on it
(single-file TypeScript GPT, `ml/gpt/gpt.ts` in the repository).

Two levels of shallow embedding are used, both translated from the source:

* The autograd computation graph (`Node`, `Heap`, `backward`): the mutable
  JavaScript object graph is modelled as a list of nodes indexed by
  allocation order, so object identity becomes the list index and every
  child index is strictly smaller than its parent's index (children are
  always allocated before the node that uses them).  Scalars are exact
  rationals: the graph claims settled here (gradient accumulation, the
  relu kink, the backward frame property) are field identities that do not
  depend on float rounding.

* The forward (data-level) numeric semantics of the model (`linear`,
  `softmax`, `rmsnorm`, `gpt`, the training-loop loss and the Adam step),
  over the real numbers, with `Real.exp` / `Real.log` / `Real.sqrt` /
  real `rpow` standing for `Math.exp` / `Math.log` / `Math.sqrt` /
  `**`.  Each definition mirrors the corresponding source function
  line by line; `Value` arithmetic is projected to its `data` field
  (`a.add(b).data = a.data + b.data`, and so on).
-/

namespace MicroGPT

/-- One autograd graph node: the `Value` class of the source.
`data` is the forward result, `grad` the gradient accumulator
(initialised to 0), `children` the input nodes (as heap indices) and
`localGrads` the local partial derivatives, one per child. -/
structure Node where
  data : ℚ
  grad : ℚ
  children : List Nat
  localGrads : List ℚ
  deriving Repr, DecidableEq

/-- The object graph: node `i` of the heap is the `Value` object allocated
`i`-th.  JavaScript object identity becomes the index. -/
abbrev Heap := List Node

/-- Forward value of node `i` (0 for an out-of-range index). -/
def dataOf (heap : Heap) (i : Nat) : ℚ := (heap[i]?.map Node.data).getD 0

/-- Gradient accumulator of node `i` (0 for an out-of-range index). -/
def gradOf (heap : Heap) (i : Nat) : ℚ := (heap[i]?.map Node.grad).getD 0

/-- Children (input indices) of node `i`. -/
def childrenOf (heap : Heap) (i : Nat) : List Nat :=
  (heap[i]?.map Node.children).getD []

/-- Local partial derivatives of node `i`, parallel to `childrenOf`. -/
def localGradsOf (heap : Heap) (i : Nat) : List ℚ :=
  (heap[i]?.map Node.localGrads).getD []

/-- Update the `grad` field of node `i` in place; all other fields and all
other nodes are untouched.  This is the only mutation `backward` performs. -/
def modifyGrad (heap : Heap) (i : Nat) (f : ℚ → ℚ) : Heap :=
  match heap[i]? with
  | none => heap
  | some n => heap.set i { n with grad := f n.grad }

/-- Allocate a fresh node at the end of the heap, returning the new heap and
the new node's index (`new Value(...)` in the source). -/
def alloc (heap : Heap) (n : Node) : Heap × Nat := (heap ++ [n], heap.length)

/-- `a.mul(b)`: forward product, children `[a, b]`, local gradients
`[b.data, a.data]`. -/
def vmul (heap : Heap) (a b : Nat) : Heap × Nat :=
  alloc heap ⟨dataOf heap a * dataOf heap b, 0, [a, b],
    [dataOf heap b, dataOf heap a]⟩

/-- `a.relu()`: forward `max(0, a.data)`, child `[a]`, local gradient
`a.data > 0 ? 1 : 0`. -/
def vrelu (heap : Heap) (a : Nat) : Heap × Nat :=
  alloc heap ⟨max 0 (dataOf heap a), 0, [a],
    [if 0 < dataOf heap a then 1 else 0]⟩

/-- Well-formedness of a heap: every child index is strictly smaller than
its parent's index.  This is the allocation-order invariant of the source
(a `Value`'s operands always exist before the `Value` itself), and makes
the graph a DAG. -/
def WF (heap : Heap) : Prop :=
  ∀ i, i < heap.length → ∀ c ∈ childrenOf heap i, c < i

instance (heap : Heap) : Decidable (WF heap) := by
  unfold WF
  infer_instance

/-- The `buildTopo` recursion of `Value.backward`: depth-first post-order
over the graph, de-duplicated by a visited set.  The state is
`(visited, topo)`.  The explicit `fuel` makes the recursion structural;
`fuel = v + 1` is always enough on a well-formed heap because every child
index is strictly smaller than its parent's. -/
def buildTopoAux (heap : Heap) : Nat → Nat → List Nat × List Nat → List Nat × List Nat
  | 0, _, st => st
  | fuel + 1, v, st =>
    if v ∈ st.1 then st
    else
      let st1 := (childrenOf heap v).foldl
        (fun s c => buildTopoAux heap fuel c s) (v :: st.1, st.2)
      (st1.1, st1.2 ++ [v])

/-- Propagate one node's gradient to its children
(`v.children[j].grad += v.localGrads[j] * v.grad`).  The parent's gradient
is re-read from the current heap at each child, exactly as the JavaScript
loop reads `v.grad` from the live object. -/
def propagateStep (heap : Heap) (v : Nat) : Heap :=
  (List.zip (childrenOf heap v) (localGradsOf heap v)).foldl
    (fun h cl => modifyGrad h cl.1 (fun g => g + cl.2 * gradOf h v)) heap

/-- `Value.backward`: build the topological order from the root, set the
root's gradient to 1, then walk the order in reverse applying the chain
rule. -/
def backward (heap : Heap) (root : Nat) : Heap :=
  let topo := (buildTopoAux heap (root + 1) root ([], [])).2
  let h1 := modifyGrad heap root (fun _ => 1)
  topo.reverse.foldl propagateStep h1

/-! Forward (data-level) semantics of the model, over the reals.  Each
definition below transcribes the corresponding source function, with every
`Value` operation projected to its `data` field. -/

/-- Model hyperparameters fixed in the source. -/
def N_EMBD : Nat := 16

/-- Max sequence length (context window). -/
def BLOCK_SIZE : Nat := 16

/-- Number of attention heads. -/
def N_HEAD : Nat := 4

/-- Dimension per head (derived: `N_EMBD / N_HEAD`). -/
def HEAD_DIM : Nat := N_EMBD / N_HEAD

/-- A weight matrix: outer length = output dimension, inner length = input
dimension.  Data-level view of the source's `Matrix = Value[][]`. -/
abbrev Mat := List (List ℝ)

/-- `linear(x, w)`: each row of `w` dotted with `x`
(`wRow.reduce((sum, wi, i) => sum.add(wi.mul(x[i])), new Value(0))`). -/
def linear (x : List ℝ) (w : Mat) : List ℝ :=
  w.map (fun wRow => (List.zipWith (fun wi xi => wi * xi) wRow x).foldl (· + ·) 0)

/-- `Math.max(...)` over a list — the source only applies it to non-empty
lists (JavaScript would give `-Infinity` on an empty one, which has no real
counterpart; every claim about `softmax` is restricted to non-empty input). -/
def listMax : List ℝ → ℝ
  | [] => 0
  | x :: xs => xs.foldl max x

/-- `softmax(logits)`: subtract the maximum raw `data` value, exponentiate,
normalise by the sum of the exponentials. -/
noncomputable def softmax (logits : List ℝ) : List ℝ :=
  let maxVal := listMax logits
  let exps := logits.map (fun v => Real.exp (v - maxVal))
  let total := exps.foldl (· + ·) 0
  exps.map (fun e => e / total)

/-- `rmsnorm(x)`: scale by `(mean-of-squares + 1e-5) ** -0.5`. -/
noncomputable def rmsnorm (x : List ℝ) : List ℝ :=
  let ms := ((x.map (fun xi => xi * xi)).foldl (· + ·) 0) / (x.length : ℝ)
  let scale := (ms + 1 / 100000) ^ (-(1 / 2 : ℝ))
  x.map (fun xi => xi * scale)

/-- Per-layer weights (`layer{i}.attn_wq` … `layer{i}.mlp_fc2`). -/
structure LayerParams where
  wq : Mat
  wk : Mat
  wv : Mat
  wo : Mat
  fc1 : Mat
  fc2 : Mat

/-- The parameter store (`stateDict`): embeddings, the per-layer weights and
the final projection. -/
structure GPTParams where
  wte : Mat
  wpe : Mat
  layers : List LayerParams
  lmHead : Mat

/-- One layer's KV cache: the keys and values pushed so far, one vector per
processed position. -/
structure KVCache where
  keys : List (List ℝ)
  values : List (List ℝ)

/-- One attention head `h`: slice the head's portion of `q` and of every
cached key/value vector, take scaled dot products, `softmax` them, and
return the attention-weighted sum of the cached value slices. -/
noncomputable def attnHead (q : List ℝ) (keys values : List (List ℝ)) (h : Nat) :
    List ℝ :=
  let hs := h * HEAD_DIM
  let qH := (q.drop hs).take HEAD_DIM
  let kH := keys.map (fun ki => (ki.drop hs).take HEAD_DIM)
  let vH := values.map (fun vi => (vi.drop hs).take HEAD_DIM)
  let attnLogits := kH.map (fun kt =>
    ((List.zipWith (fun qj kj => qj * kj) qH kt).foldl (· + ·) 0) /
      Real.sqrt (HEAD_DIM : ℝ))
  let attnWeights := softmax attnLogits
  (List.range HEAD_DIM).map (fun j =>
    (List.zip attnWeights vH).foldl (fun sum wt => sum + wt.1 * (wt.2.getD j 0)) 0)

/-- One transformer layer at one position: pre-norm attention block with the
KV-cache push, then pre-norm MLP block, both with residual connections.
Returns the new activation and the layer's grown cache. -/
noncomputable def gptLayer (lp : LayerParams) (x : List ℝ) (cache : KVCache) :
    List ℝ × KVCache :=
  let xRes1 := x
  let xn := rmsnorm x
  let q := linear xn lp.wq
  let k := linear xn lp.wk
  let v := linear xn lp.wv
  let keys := cache.keys ++ [k]
  let values := cache.values ++ [v]
  let xAttn := ((List.range N_HEAD).map (fun h => attnHead q keys values h)).flatten
  let xo := linear xAttn lp.wo
  let x1 := List.zipWith (fun a r => a + r) xo xRes1
  let xRes2 := x1
  let xn2 := rmsnorm x1
  let xf := linear xn2 lp.fc1
  let xr := xf.map (fun xi => max 0 xi)
  let xp := linear xr lp.fc2
  let x2 := List.zipWith (fun a r => a + r) xp xRes2
  (x2, ⟨keys, values⟩)

/-- The `for (let li = 0; li < N_LAYER; li++)` loop: thread the activation
through the layers, pairing layer `li` with cache `li`. -/
noncomputable def runLayers :
    List LayerParams → List KVCache → List ℝ → List ℝ × List KVCache
  | [], _, x => (x, [])
  | lp :: lps, caches, x =>
    let step := gptLayer lp x (caches.headD ⟨[], []⟩)
    let rest := runLayers lps caches.tail step.1
    (rest.1, step.2 :: rest.2)

/-- `gpt(tokenId, posId, keys, values)`: embeddings, the layer stack, final
projection to vocabulary logits.  Returns the logits and the updated
per-layer caches. -/
noncomputable def gpt (par : GPTParams) (tokenId posId : Nat)
    (caches : List KVCache) : List ℝ × List KVCache :=
  let tokEmb := par.wte.getD tokenId []
  let posEmb := par.wpe.getD posId []
  let x := List.zipWith (fun t p => t + p) tokEmb posEmb
  let xn := rmsnorm x
  let out := runLayers par.layers caches xn
  (linear out.1 par.lmHead, out.2)

/-- Fresh, empty KV caches, one per layer
(`Array.from({ length: N_LAYER }, () => [])`). -/
def freshCaches (par : GPTParams) : List KVCache :=
  par.layers.map (fun _ => ⟨[], []⟩)

/-- Feed tokens one position at a time (`logits = gpt(tokens[pos], pos, …)`),
threading the caches, recording the logits and the cache state after each
position.  `fuel` is the number of positions still to process and `pos` the
current position index. -/
noncomputable def forwardRun (par : GPTParams) (tokens : List Nat) :
    Nat → Nat → List KVCache → List (List ℝ × List KVCache)
  | 0, _, _ => []
  | fuel + 1, pos, caches =>
    let step := gpt par (tokens.getD pos 0) pos caches
    (step.1, step.2) :: forwardRun par tokens fuel (pos + 1) step.2

/-- A whole sequence fed position-by-position from fresh caches. -/
noncomputable def runSeq (par : GPTParams) (tokens : List Nat) :
    List (List ℝ × List KVCache) :=
  forwardRun par tokens tokens.length 0 (freshCaches par)

/-- The key/value cache lengths of every layer, in order. -/
def cacheLens (caches : List KVCache) : List (Nat × Nat) :=
  caches.map (fun c => (c.keys.length, c.values.length))

/-- The per-position training losses of one step: for each position,
forward the token, `softmax` the logits, and take
`probs[tokens[pos + 1]].log().neg()`.  `fuel` counts the remaining
positions (the loop bound `n`). -/
noncomputable def lossLoop (par : GPTParams) (tokens : List Nat) :
    Nat → Nat → List KVCache → List ℝ
  | 0, _, _ => []
  | fuel + 1, pos, caches =>
    let step := gpt par (tokens.getD pos 0) pos caches
    let probs := softmax step.1
    (0 - Real.log (probs.getD (tokens.getD (pos + 1) 0) 0)) ::
      lossLoop par tokens fuel (pos + 1) step.2

/-- The list of per-position losses of one training step on a (BOS-framed)
token list: `n = min(BLOCK_SIZE, tokens.length - 1)` positions, fresh
caches. -/
noncomputable def trainLosses (par : GPTParams) (tokens : List Nat) : List ℝ :=
  lossLoop par tokens (min BLOCK_SIZE (tokens.length - 1)) 0 (freshCaches par)

/-- The forward run underlying one training step (same `n` positions, fresh
caches). -/
noncomputable def trainRun (par : GPTParams) (tokens : List Nat) :
    List (List ℝ × List KVCache) :=
  forwardRun par tokens (min BLOCK_SIZE (tokens.length - 1)) 0 (freshCaches par)

/-- The scalar loss node passed to `backward()`:
`losses.reduce((sum, l) => sum.add(l), new Value(0)).div(n)`. -/
noncomputable def trainLoss (par : GPTParams) (tokens : List Nat) : ℝ :=
  ((trainLosses par tokens).foldl (· + ·) 0) /
    ((min BLOCK_SIZE (tokens.length - 1) : Nat) : ℝ)

/-! Tokenizer constants. -/

/-- The reserved Beginning-of-Sequence token id: `uchars.length`. -/
def BOS (uchars : List Char) : Nat := uchars.length

/-- The vocabulary size: `uchars.length + 1` (`+1 for BOS`). -/
def vocabSize (uchars : List Char) : Nat := uchars.length + 1

/-! The Adam update of the training loop (lines 397–407 of the source),
for a single parameter.  `step` is the source's 0-indexed loop counter. -/

/-- Initial learning rate. -/
noncomputable def LEARNING_RATE : ℝ := 1 / 100

/-- Exponential decay rate for the first moment. -/
noncomputable def BETA1 : ℝ := 85 / 100

/-- Exponential decay rate for the second moment. -/
noncomputable def BETA2 : ℝ := 99 / 100

/-- Division-by-zero guard in the Adam denominator. -/
noncomputable def EPS : ℝ := 1 / 100000000

/-- Total planned number of training steps. -/
def NUM_STEPS : Nat := 1000

/-- The decayed learning rate actually used at 0-indexed step `step`:
`LEARNING_RATE * (1 - step / NUM_STEPS)`. -/
noncomputable def lrT (step : Nat) : ℝ := LEARNING_RATE * (1 - (step : ℝ) / (NUM_STEPS : ℝ))

/-- The learning rate the claim asserts for 1-indexed step `t`
(`lr_0 * (1 - t / total_steps)` with `t` running from 1 to `NUM_STEPS`,
reaching 0 at the final step).  Written from the claim's words, to be
compared against `lrT`. -/
noncomputable def lrClaimed (t : Nat) : ℝ := LEARNING_RATE * (1 - (t : ℝ) / (NUM_STEPS : ℝ))

/-- One parameter's Adam update at 0-indexed step `step`: new moments and
new parameter value, exactly as in the source loop body. -/
noncomputable def adamUpdate (step : Nat) (grad mPrev vPrev data : ℝ) :
    ℝ × ℝ × ℝ :=
  let m := BETA1 * mPrev + (1 - BETA1) * grad
  let v := BETA2 * vPrev + (1 - BETA2) * grad ^ 2
  let mHat := m / (1 - BETA1 ^ (step + 1))
  let vHat := v / (1 - BETA2 ^ (step + 1))
  (m, v, data - lrT step * mHat / (Real.sqrt vHat + EPS))

/-- The Adam update stated over the 1-indexed step count `t`, following the
amended claim: the bias corrections divide by `(1 - BETA1 ^ t)` and
`(1 - BETA2 ^ t)`, while the learning-rate factor uses the 0-indexed count
`t - 1`. -/
noncomputable def adamUpdateAmended (t : Nat) (grad mPrev vPrev data : ℝ) :
    ℝ × ℝ × ℝ :=
  let m := BETA1 * mPrev + (1 - BETA1) * grad
  let v := BETA2 * vPrev + (1 - BETA2) * grad ^ 2
  let mHat := m / (1 - BETA1 ^ t)
  let vHat := v / (1 - BETA2 ^ t)
  let lr := LEARNING_RATE * (1 - ((t - 1 : Nat) : ℝ) / (NUM_STEPS : ℝ))
  (m, v, data - lr * mHat / (Real.sqrt vHat + EPS))

/-! Helper lemmas about the autograd heap. -/

theorem getElem?_append_lt {α : Type} (l1 l2 : List α) (i : Nat)
    (h : i < l1.length) : (l1 ++ l2)[i]? = l1[i]? := by
  rw [List.getElem?_append]
  simp [h]

theorem modifyGrad_none (heap : Heap) (i : Nat) (f : ℚ → ℚ)
    (h : heap[i]? = none) : modifyGrad heap i f = heap := by
  unfold modifyGrad
  rw [h]

theorem modifyGrad_length (heap : Heap) (i : Nat) (f : ℚ → ℚ) :
    (modifyGrad heap i f).length = heap.length := by
  unfold modifyGrad
  cases h : heap[i]? with
  | none => rfl
  | some n => simp

theorem modifyGrad_getElem?_ne (heap : Heap) (i j : Nat) (f : ℚ → ℚ)
    (hij : j ≠ i) : (modifyGrad heap i f)[j]? = heap[j]? := by
  unfold modifyGrad
  cases h : heap[i]? with
  | none => rfl
  | some n => exact List.getElem?_set_ne (fun e => hij e.symm)

theorem modifyGrad_getElem?_self (heap : Heap) (i : Nat) (f : ℚ → ℚ)
    {n : Node} (h : heap[i]? = some n) :
    (modifyGrad heap i f)[i]? = some { n with grad := f n.grad } := by
  have hlt : i < heap.length := by
    by_contra hn
    rw [List.getElem?_eq_none (Nat.le_of_not_lt hn)] at h
    cases h
  unfold modifyGrad
  rw [h]
  exact List.getElem?_set_self hlt

theorem dataOf_modifyGrad (heap : Heap) (i j : Nat) (f : ℚ → ℚ) :
    dataOf (modifyGrad heap i f) j = dataOf heap j := by
  rcases eq_or_ne j i with rfl | hij
  · cases h : heap[j]? with
    | none => rw [modifyGrad_none heap j f h]
    | some n => unfold dataOf; rw [modifyGrad_getElem?_self heap j f h, h]; rfl
  · unfold dataOf; rw [modifyGrad_getElem?_ne heap i j f hij]

theorem childrenOf_modifyGrad (heap : Heap) (i j : Nat) (f : ℚ → ℚ) :
    childrenOf (modifyGrad heap i f) j = childrenOf heap j := by
  rcases eq_or_ne j i with rfl | hij
  · cases h : heap[j]? with
    | none => rw [modifyGrad_none heap j f h]
    | some n => unfold childrenOf; rw [modifyGrad_getElem?_self heap j f h, h]; rfl
  · unfold childrenOf; rw [modifyGrad_getElem?_ne heap i j f hij]

theorem localGradsOf_modifyGrad (heap : Heap) (i j : Nat) (f : ℚ → ℚ) :
    localGradsOf (modifyGrad heap i f) j = localGradsOf heap j := by
  rcases eq_or_ne j i with rfl | hij
  · cases h : heap[j]? with
    | none => rw [modifyGrad_none heap j f h]
    | some n => unfold localGradsOf; rw [modifyGrad_getElem?_self heap j f h, h]; rfl
  · unfold localGradsOf; rw [modifyGrad_getElem?_ne heap i j f hij]

theorem gradOf_modifyGrad_ne (heap : Heap) (i j : Nat) (f : ℚ → ℚ)
    (hij : j ≠ i) : gradOf (modifyGrad heap i f) j = gradOf heap j := by
  unfold gradOf
  rw [modifyGrad_getElem?_ne heap i j f hij]

theorem gradOf_modifyGrad_self (heap : Heap) (i : Nat) (f : ℚ → ℚ)
    (h : i < heap.length) : gradOf (modifyGrad heap i f) i = f (gradOf heap i) := by
  cases hn : heap[i]? with
  | none => exact absurd hn (by simp [List.getElem?_eq_some_iff]; omega)
  | some n => unfold gradOf; rw [modifyGrad_getElem?_self heap i f hn, hn]; rfl

/-- Two heaps with the same length and identical `data`, `children` and
`localGrads` at every index: everything except gradients agrees. -/
def sameShape (h1 h2 : Heap) : Prop :=
  h1.length = h2.length ∧
  ∀ i, dataOf h1 i = dataOf h2 i ∧ childrenOf h1 i = childrenOf h2 i ∧
    localGradsOf h1 i = localGradsOf h2 i

theorem sameShape_refl (h : Heap) : sameShape h h :=
  ⟨rfl, fun _ => ⟨rfl, rfl, rfl⟩⟩

theorem sameShape_trans {h1 h2 h3 : Heap} (a : sameShape h1 h2)
    (b : sameShape h2 h3) : sameShape h1 h3 := by
  refine ⟨a.1.trans b.1, fun i => ?_⟩
  obtain ⟨a1, a2, a3⟩ := a.2 i
  obtain ⟨b1, b2, b3⟩ := b.2 i
  exact ⟨a1.trans b1, a2.trans b2, a3.trans b3⟩

theorem modifyGrad_sameShape (heap : Heap) (i : Nat) (f : ℚ → ℚ) :
    sameShape heap (modifyGrad heap i f) :=
  ⟨(modifyGrad_length heap i f).symm, fun j =>
    ⟨(dataOf_modifyGrad heap i j f).symm, (childrenOf_modifyGrad heap i j f).symm,
      (localGradsOf_modifyGrad heap i j f).symm⟩⟩

theorem foldl_sameShape {α : Type} (f : Heap → α → Heap)
    (hf : ∀ h x, sameShape h (f h x)) :
    ∀ (l : List α) (h : Heap), sameShape h (l.foldl f h)
  | [], h => sameShape_refl h
  | x :: xs, h => sameShape_trans (hf h x) (foldl_sameShape f hf xs (f h x))

theorem propagateStep_sameShape (h : Heap) (v : Nat) :
    sameShape h (propagateStep h v) := by
  unfold propagateStep
  exact foldl_sameShape
    (fun h2 (cl : Nat × ℚ) => modifyGrad h2 cl.1 (fun g => g + cl.2 * gradOf h2 v))
    (fun h2 cl => modifyGrad_sameShape h2 cl.1 _) _ h

theorem backward_sameShape (heap : Heap) (root : Nat) :
    sameShape heap (backward heap root) :=
  sameShape_trans (modifyGrad_sameShape heap root _)
    (foldl_sameShape propagateStep propagateStep_sameShape _ _)

theorem WF_all {heap : Heap} (h : WF heap) :
    ∀ v c, c ∈ childrenOf heap v → c < v := by
  intro v c hc
  by_cases hv : v < heap.length
  · exact h v hv c hc
  · exfalso
    unfold childrenOf at hc
    rw [List.getElem?_eq_none (Nat.le_of_not_lt hv)] at hc
    simp at hc

theorem buildTopoAux_visited (heap : Heap) (fuel v : Nat)
    (st : List Nat × List Nat) (h : v ∈ st.1) :
    buildTopoAux heap fuel v st = st := by
  cases fuel with
  | zero => rfl
  | succ fuel => unfold buildTopoAux; simp [h]

theorem buildTopoAux_vis_mono (heap : Heap) :
    ∀ (fuel v : Nat) (st : List Nat × List Nat) (x : Nat), x ∈ st.1 →
      x ∈ (buildTopoAux heap fuel v st).1 := by
  intro fuel
  induction fuel with
  | zero => intro v st x hx; exact hx
  | succ fuel ih =>
    intro v st x hx
    unfold buildTopoAux
    by_cases hv : v ∈ st.1
    · simp only [hv, if_true]; exact hx
    · simp only [hv, if_false]
      have hfold : ∀ (l : List Nat) (st1 : List Nat × List Nat), x ∈ st1.1 →
          x ∈ (l.foldl (fun s c => buildTopoAux heap fuel c s) st1).1 := by
        intro l
        induction l with
        | nil => intro st1 hx1; exact hx1
        | cons c cs ihl => intro st1 hx1; exact ihl _ (ih c st1 x hx1)
      exact hfold _ _ (List.mem_cons_of_mem v hx)

theorem buildTopoFold_vis_mono (heap : Heap) (fuel : Nat) :
    ∀ (l : List Nat) (st : List Nat × List Nat) (x : Nat), x ∈ st.1 →
      x ∈ (l.foldl (fun s c => buildTopoAux heap fuel c s) st).1 := by
  intro l
  induction l with
  | nil => intro st x hx; exact hx
  | cons c cs ihl => intro st x hx; exact ihl _ x (buildTopoAux_vis_mono heap fuel c st x hx)

theorem buildTopoAux_vis_self (heap : Heap) (fuel v : Nat)
    (st : List Nat × List Nat) : v ∈ (buildTopoAux heap (fuel + 1) v st).1 := by
  unfold buildTopoAux
  by_cases hv : v ∈ st.1
  · simp only [hv, if_true]
  · simp only [hv, if_false]
    exact buildTopoFold_vis_mono heap fuel _ _ v (List.mem_cons_self v st.1)

theorem buildTopoAux_topo_bound (heap : Heap)
    (hWF : ∀ v c, c ∈ childrenOf heap v → c < v) :
    ∀ (fuel v : Nat) (st : List Nat × List Nat) (x : Nat),
      x ∈ (buildTopoAux heap fuel v st).2 → x ∈ st.2 ∨ x ≤ v := by
  intro fuel
  induction fuel with
  | zero => intro v st x hx; exact Or.inl hx
  | succ fuel ih =>
    intro v st x hx
    unfold buildTopoAux at hx
    by_cases hv : v ∈ st.1
    · simp only [hv, if_true] at hx; exact Or.inl hx
    · simp only [hv, if_false] at hx
      rcases List.mem_append.mp hx with hx1 | hx2
      · have hfold : ∀ (l : List Nat), (∀ c ∈ l, c < v) →
            ∀ (st1 : List Nat × List Nat),
            x ∈ (l.foldl (fun s c => buildTopoAux heap fuel c s) st1).2 →
            x ∈ st1.2 ∨ x < v := by
          intro l
          induction l with
          | nil => intro _ st1 hx1; exact Or.inl hx1
          | cons c cs ihl =>
            intro hcl st1 hx1
            rcases ihl (fun d hd => hcl d (List.mem_cons_of_mem c hd)) _ hx1 with h1 | h1
            · rcases ih c _ x h1 with h2 | h2
              · exact Or.inl h2
              · exact Or.inr (lt_of_le_of_lt h2 (hcl c (List.mem_cons_self c cs)))
            · exact Or.inr h1
        rcases hfold (childrenOf heap v) (fun c hc => hWF v c hc) _ hx1 with h1 | h1
        · exact Or.inl h1
        · exact Or.inr (le_of_lt h1)
      · rw [List.mem_singleton] at hx2
        exact Or.inr (le_of_eq hx2)

theorem foldl_modify_gradOf_ne (v a : Nat) :
    ∀ (L : List (Nat × ℚ)) (h : Heap), (∀ p ∈ L, p.1 ≠ a) →
      gradOf (L.foldl
        (fun h2 cl => modifyGrad h2 cl.1 (fun g => g + cl.2 * gradOf h2 v)) h) a =
      gradOf h a := by
  intro L
  induction L with
  | nil => intro h _; rfl
  | cons p ps ihp =>
    intro h hps
    simp only [List.foldl_cons]
    rw [ihp _ (fun q hq => hps q (List.mem_cons_of_mem p hq))]
    exact gradOf_modifyGrad_ne _ _ _ _ (fun e => hps p (List.mem_cons_self p ps) e.symm)

theorem propagateStep_gradOf_ne (h : Heap) (v a : Nat)
    (ha : a ∉ childrenOf h v) : gradOf (propagateStep h v) a = gradOf h a := by
  unfold propagateStep
  apply foldl_modify_gradOf_ne
  intro p hp hpa
  obtain ⟨c, lg⟩ := p
  exact ha (hpa ▸ (List.of_mem_zip hp).1)

theorem foldl_propagateStep_gradOf (h0 : Heap) (a : Nat) :
    ∀ (l : List Nat) (h : Heap), sameShape h0 h →
      (∀ v ∈ l, a ∉ childrenOf h0 v) →
      gradOf (l.foldl propagateStep h) a = gradOf h a := by
  intro l
  induction l with
  | nil => intro h _ _; rfl
  | cons v vs ihv =>
    intro h hsh hl
    simp only [List.foldl_cons]
    rw [ihv _ (sameShape_trans hsh (propagateStep_sameShape h v))
      (fun w hw => hl w (List.mem_cons_of_mem v hw))]
    apply propagateStep_gradOf_ne
    rw [← (hsh.2 v).2.1]
    exact hl v (List.mem_cons_self v vs)

theorem dataOf_append_lt (heap : Heap) (n : Node) (i : Nat)
    (h : i < heap.length) : dataOf (heap ++ [n]) i = dataOf heap i := by
  unfold dataOf; rw [getElem?_append_lt _ _ _ h]

theorem gradOf_append_lt (heap : Heap) (n : Node) (i : Nat)
    (h : i < heap.length) : gradOf (heap ++ [n]) i = gradOf heap i := by
  unfold gradOf; rw [getElem?_append_lt _ _ _ h]

theorem childrenOf_append_lt (heap : Heap) (n : Node) (i : Nat)
    (h : i < heap.length) : childrenOf (heap ++ [n]) i = childrenOf heap i := by
  unfold childrenOf; rw [getElem?_append_lt _ _ _ h]

theorem dataOf_concat_self (heap : Heap) (n : Node) :
    dataOf (heap ++ [n]) heap.length = n.data := by
  unfold dataOf; rw [List.getElem?_concat_length]; rfl

theorem gradOf_concat_self (heap : Heap) (n : Node) :
    gradOf (heap ++ [n]) heap.length = n.grad := by
  unfold gradOf; rw [List.getElem?_concat_length]; rfl

theorem childrenOf_concat_self (heap : Heap) (n : Node) :
    childrenOf (heap ++ [n]) heap.length = n.children := by
  unfold childrenOf; rw [List.getElem?_concat_length]; rfl

theorem localGradsOf_concat_self (heap : Heap) (n : Node) :
    localGradsOf (heap ++ [n]) heap.length = n.localGrads := by
  unfold localGradsOf; rw [List.getElem?_concat_length]; rfl

theorem buildTopoAux_step (heap : Heap) (fuel v : Nat)
    (st : List Nat × List Nat) (h : v ∉ st.1) :
    buildTopoAux heap (fuel + 1) v st =
      (((childrenOf heap v).foldl (fun s c => buildTopoAux heap fuel c s)
          (v :: st.1, st.2)).1,
        ((childrenOf heap v).foldl (fun s c => buildTopoAux heap fuel c s)
          (v :: st.1, st.2)).2 ++ [v]) := by
  conv_lhs => unfold buildTopoAux
  simp [h]

/-- Well-formedness extends across a single allocation whose children all
point below the old heap top. -/
theorem WF_concat (heap : Heap) (n : Node) (hWF : WF heap)
    (hn : ∀ c ∈ n.children, c < heap.length) :
    ∀ v c, c ∈ childrenOf (heap ++ [n]) v → c < v := by
  intro v c hc
  by_cases hv : v < heap.length
  · rw [childrenOf_append_lt heap n v hv] at hc
    exact WF_all hWF v c hc
  · by_cases hvl : v = heap.length
    · subst hvl
      rw [childrenOf_concat_self heap n] at hc
      exact hn c hc
    · exfalso
      have hge : (heap ++ [n]).length ≤ v := by
        simp only [List.length_append, List.length_singleton]
        omega
      unfold childrenOf at hc
      rw [List.getElem?_eq_none hge] at hc
      simp at hc

/-- C1: for every node `a` (in a well-formed heap) whose `grad` is 0,
constructing `y = a.mul(a)` and calling `y.backward()` leaves `a.grad`
equal to `2 * a.data`: the two child occurrences of `a` under `y` each add
`a.data * y.grad` into the shared accumulator instead of overwriting it. -/
theorem c1_backward_mul_self_accumulates (heap : Heap) (a : Nat)
    (hWF : WF heap) (ha : a < heap.length) (hg : gradOf heap a = 0) :
    gradOf (backward (vmul heap a a).1 (vmul heap a a).2) a =
      2 * dataOf heap a := by
  set da := dataOf heap a with hda
  have hvm1 : (vmul heap a a).1 =
      heap ++ [⟨da * da, 0, [a, a], [da, da]⟩] := rfl
  have hvm2 : (vmul heap a a).2 = heap.length := rfl
  rw [hvm1, hvm2]
  set nd : Node := ⟨da * da, 0, [a, a], [da, da]⟩ with hnd
  set y := heap.length with hy
  set h1 : Heap := heap ++ [nd] with hh1
  have hlen1 : h1.length = y + 1 := by rw [hh1]; simp [hy]
  have hay : a < y := ha
  have hane : a ≠ y := Nat.ne_of_lt hay
  have hch : childrenOf h1 y = [a, a] := by
    rw [hh1, hy]; exact childrenOf_concat_self heap nd
  have hlg : localGradsOf h1 y = [da, da] := by
    rw [hh1, hy]; exact localGradsOf_concat_self heap nd
  have hgr1a : gradOf h1 a = 0 := by
    rw [hh1, gradOf_append_lt heap nd a ha]; exact hg
  have hgr1y : gradOf h1 y = 0 := by
    rw [hh1, hy]; exact gradOf_concat_self heap nd
  have hWF1 : ∀ v c, c ∈ childrenOf h1 v → c < v := by
    rw [hh1]
    apply WF_concat heap nd hWF
    intro c hc
    have : c = a ∨ c = a := by
      simpa [hnd] using hc
    rcases this with rfl | rfl <;> exact ha
  obtain ⟨y2, hy2⟩ : ∃ y2, y = y2 + 1 := ⟨y - 1, by omega⟩
  set stA := buildTopoAux h1 y a ([y], []) with hstA
  have havis : a ∈ stA.1 := by
    rw [hstA, hy2]; exact buildTopoAux_vis_self h1 y2 a _
  have hfold : (childrenOf h1 y).foldl
      (fun s c => buildTopoAux h1 y c s) ([y], []) = stA := by
    rw [hch]
    simp only [List.foldl_cons, List.foldl_nil]
    rw [← hstA]
    exact buildTopoAux_visited h1 y a stA havis
  have htopo : buildTopoAux h1 (y + 1) y ([], []) = (stA.1, stA.2 ++ [y]) := by
    rw [buildTopoAux_step h1 y y ([], []) (by simp)]
    rw [hfold]
  set h2 : Heap := modifyGrad h1 y (fun _ => 1) with hh2
  have hback : backward h1 y =
      ((buildTopoAux h1 (y + 1) y ([], [])).2.reverse).foldl propagateStep h2 := rfl
  rw [hback, htopo]
  simp only [List.reverse_append, List.reverse_cons, List.reverse_nil,
    List.nil_append, List.singleton_append, List.foldl_cons]
  have hlh2 : h2.length = y + 1 := by rw [hh2, modifyGrad_length]; exact hlen1
  have hgy2 : gradOf h2 y = 1 := by
    rw [hh2, gradOf_modifyGrad_self h1 y _ (by omega)]
  have hga2 : gradOf h2 a = 0 := by
    rw [hh2, gradOf_modifyGrad_ne h1 y a _ hane]; exact hgr1a
  have hch2 : childrenOf h2 y = [a, a] := by
    rw [hh2, childrenOf_modifyGrad]; exact hch
  have hlg2 : localGradsOf h2 y = [da, da] := by
    rw [hh2, localGradsOf_modifyGrad]; exact hlg
  set hA : Heap := modifyGrad h2 a (fun g => g + da * gradOf h2 y) with hhA
  have hps : propagateStep h2 y = modifyGrad hA a (fun g => g + da * gradOf hA y) := by
    unfold propagateStep
    rw [hch2, hlg2, hhA]
    rfl
  have hgAy : gradOf hA y = 1 := by
    rw [hhA, gradOf_modifyGrad_ne h2 a y _ (Ne.symm hane)]; exact hgy2
  have hgAa : gradOf hA a = 0 + da * 1 := by
    rw [hhA, gradOf_modifyGrad_self h2 a _ (by omega), hga2, hgy2]
  have hAlen : hA.length = y + 1 := by rw [hhA, modifyGrad_length]; exact hlh2
  rw [foldl_propagateStep_gradOf h1 a stA.2.reverse (propagateStep h2 y)
    (sameShape_trans (by rw [hh2]; exact modifyGrad_sameShape h1 y _)
      (propagateStep_sameShape h2 y))
    ?hnc]
  case hnc =>
    intro v hv hmem
    rw [List.mem_reverse] at hv
    have hvb := buildTopoAux_topo_bound h1 hWF1 y a ([y], []) v (hstA ▸ hv)
    have hva : v ≤ a := by
      rcases hvb with h0 | h0
      · simp at h0
      · exact h0
    have hvlt : v < heap.length := by omega
    rw [hh1, childrenOf_append_lt heap nd v hvlt] at hmem
    have := WF_all hWF v a hmem
    omega
  rw [hps, gradOf_modifyGrad_self hA a _ (by omega), hgAa, hgAy]
  ring

/-- Witness for C1: a one-node heap holding the value 5; after
`(a.mul(a)).backward()` the node's gradient is `2 * 5`. -/
theorem c1_backward_mul_self_accumulates_witness :
    WF [({ data := 5, grad := 0, children := [], localGrads := [] } : Node)] ∧
    0 < ([({ data := 5, grad := 0, children := [], localGrads := [] } : Node)] : Heap).length ∧
    gradOf [({ data := 5, grad := 0, children := [], localGrads := [] } : Node)] 0 = 0 ∧
    gradOf (backward
      (vmul [({ data := 5, grad := 0, children := [], localGrads := [] } : Node)] 0 0).1
      (vmul [({ data := 5, grad := 0, children := [], localGrads := [] } : Node)] 0 0).2) 0 =
      2 * dataOf [({ data := 5, grad := 0, children := [], localGrads := [] } : Node)] 0 :=
  ⟨by decide, by decide, by decide,
    c1_backward_mul_self_accumulates
      [({ data := 5, grad := 0, children := [], localGrads := [] } : Node)] 0
      (by decide) (by decide) (by decide)⟩

/-- C8: `backward()` mutates only `grad` fields: the heap keeps its length
and every node keeps its `data`, `children` and `localGrads` (this covers in
particular every node reachable from the root through child edges). -/
theorem c8_backward_mutates_only_grad (heap : Heap) (root : Nat) :
    (backward heap root).length = heap.length ∧
    ∀ i, dataOf (backward heap root) i = dataOf heap i ∧
      childrenOf (backward heap root) i = childrenOf heap i ∧
      localGradsOf (backward heap root) i = localGradsOf heap i := by
  have h := backward_sameShape heap root
  refine ⟨h.1.symm, fun i => ?_⟩
  obtain ⟨h1, h2, h3⟩ := h.2 i
  exact ⟨h1.symm, h2.symm, h3.symm⟩

/-- C10: for every node `a` with `a.data ≤ 0`, `relu(a)` is a node with
forward value 0 and local gradient 0 with respect to `a` (the derivative at
the kink `a.data = 0` is taken to be 0, not 1), so `backward()` on the relu
node propagates a zero contribution and leaves `a.grad` unchanged. -/
theorem c10_relu_nonpositive (heap : Heap) (a : Nat) (hWF : WF heap)
    (ha : a < heap.length) (hd : dataOf heap a ≤ 0) :
    dataOf (vrelu heap a).1 (vrelu heap a).2 = 0 ∧
    localGradsOf (vrelu heap a).1 (vrelu heap a).2 = [0] ∧
    gradOf (backward (vrelu heap a).1 (vrelu heap a).2) a = gradOf heap a := by
  have hmax : max 0 (dataOf heap a) = 0 := max_eq_left hd
  have hif : (if 0 < dataOf heap a then (1 : ℚ) else 0) = 0 :=
    if_neg (not_lt.mpr hd)
  set nd : Node := ⟨0, 0, [a], [0]⟩ with hnd
  have hv1 : (vrelu heap a).1 = heap ++ [nd] := by
    unfold vrelu alloc
    rw [hmax, hif]
  have hv2 : (vrelu heap a).2 = heap.length := rfl
  rw [hv1, hv2]
  set y := heap.length with hy
  set h1 : Heap := heap ++ [nd] with hh1
  have hlen1 : h1.length = y + 1 := by rw [hh1]; simp [hy]
  have hay : a < y := ha
  have hane : a ≠ y := Nat.ne_of_lt hay
  have hch : childrenOf h1 y = [a] := by
    rw [hh1, hy]; exact childrenOf_concat_self heap nd
  have hlg : localGradsOf h1 y = [0] := by
    rw [hh1, hy]; exact localGradsOf_concat_self heap nd
  have hdata : dataOf h1 y = 0 := by
    rw [hh1, hy]; exact dataOf_concat_self heap nd
  have hgr1a : gradOf h1 a = gradOf heap a := by
    rw [hh1]; exact gradOf_append_lt heap nd a ha
  have hWF1 : ∀ v c, c ∈ childrenOf h1 v → c < v := by
    rw [hh1]
    apply WF_concat heap nd hWF
    intro c hc
    have : c = a := by simpa [hnd] using hc
    subst this; exact ha
  refine ⟨hdata, hlg, ?_⟩
  obtain ⟨y2, hy2⟩ : ∃ y2, y = y2 + 1 := ⟨y - 1, by omega⟩
  set stA := buildTopoAux h1 y a ([y], []) with hstA
  have havis : a ∈ stA.1 := by
    rw [hstA, hy2]; exact buildTopoAux_vis_self h1 y2 a _
  have hfold : (childrenOf h1 y).foldl
      (fun s c => buildTopoAux h1 y c s) ([y], []) = stA := by
    rw [hch]
    simp only [List.foldl_cons, List.foldl_nil]
  have htopo : buildTopoAux h1 (y + 1) y ([], []) = (stA.1, stA.2 ++ [y]) := by
    rw [buildTopoAux_step h1 y y ([], []) (by simp)]
    rw [hfold]
  set h2 : Heap := modifyGrad h1 y (fun _ => 1) with hh2
  have hback : backward h1 y =
      ((buildTopoAux h1 (y + 1) y ([], [])).2.reverse).foldl propagateStep h2 := rfl
  rw [hback, htopo]
  simp only [List.reverse_append, List.reverse_cons, List.reverse_nil,
    List.nil_append, List.singleton_append, List.foldl_cons]
  have hlh2 : h2.length = y + 1 := by rw [hh2, modifyGrad_length]; exact hlen1
  have hgy2 : gradOf h2 y = 1 := by
    rw [hh2, gradOf_modifyGrad_self h1 y _ (by omega)]
  have hga2 : gradOf h2 a = gradOf heap a := by
    rw [hh2, gradOf_modifyGrad_ne h1 y a _ hane]; exact hgr1a
  have hch2 : childrenOf h2 y = [a] := by
    rw [hh2, childrenOf_modifyGrad]; exact hch
  have hlg2 : localGradsOf h2 y = [0] := by
    rw [hh2, localGradsOf_modifyGrad]; exact hlg
  have hps : propagateStep h2 y = modifyGrad h2 a (fun g => g + 0 * gradOf h2 y) := by
    unfold propagateStep
    rw [hch2, hlg2]
    rfl
  rw [foldl_propagateStep_gradOf h1 a stA.2.reverse (propagateStep h2 y)
    (sameShape_trans (by rw [hh2]; exact modifyGrad_sameShape h1 y _)
      (propagateStep_sameShape h2 y))
    ?hnc]
  case hnc =>
    intro v hv hmem
    rw [List.mem_reverse] at hv
    have hvb := buildTopoAux_topo_bound h1 hWF1 y a ([y], []) v (hstA ▸ hv)
    have hva : v ≤ a := by
      rcases hvb with h0 | h0
      · simp at h0
      · exact h0
    have hvlt : v < heap.length := by omega
    rw [hh1, childrenOf_append_lt heap nd v hvlt] at hmem
    have := WF_all hWF v a hmem
    omega
  rw [hps, gradOf_modifyGrad_self h2 a _ (by omega), hga2, hgy2]
  ring

/-- Witness for C10: a one-node heap holding the value `-1` with gradient 3;
`relu` of it has forward value 0 and local gradient 0, and `backward` keeps
the gradient at 3. -/
theorem c10_relu_nonpositive_witness :
    WF [({ data := -1, grad := 3, children := [], localGrads := [] } : Node)] ∧
    0 < ([({ data := -1, grad := 3, children := [], localGrads := [] } : Node)] : Heap).length ∧
    dataOf [({ data := -1, grad := 3, children := [], localGrads := [] } : Node)] 0 ≤ 0 ∧
    (dataOf (vrelu [({ data := -1, grad := 3, children := [], localGrads := [] } : Node)] 0).1
      (vrelu [({ data := -1, grad := 3, children := [], localGrads := [] } : Node)] 0).2 = 0 ∧
    localGradsOf (vrelu [({ data := -1, grad := 3, children := [], localGrads := [] } : Node)] 0).1
      (vrelu [({ data := -1, grad := 3, children := [], localGrads := [] } : Node)] 0).2 = [0] ∧
    gradOf (backward
      (vrelu [({ data := -1, grad := 3, children := [], localGrads := [] } : Node)] 0).1
      (vrelu [({ data := -1, grad := 3, children := [], localGrads := [] } : Node)] 0).2) 0 =
      gradOf [({ data := -1, grad := 3, children := [], localGrads := [] } : Node)] 0) :=
  ⟨by decide, by decide, by decide,
    c10_relu_nonpositive
      [({ data := -1, grad := 3, children := [], localGrads := [] } : Node)] 0
      (by decide) (by decide) (by decide)⟩

/-! Helper lemmas about the real-valued helpers. -/

theorem foldl_add_eq (l : List ℝ) : ∀ a : ℝ, l.foldl (· + ·) a = a + l.sum := by
  induction l with
  | nil => intro a; simp
  | cons x xs ih => intro a; simp only [List.foldl_cons, List.sum_cons, ih]; ring

theorem sum_map_div (l : List ℝ) (t : ℝ) :
    (l.map (fun x => x / t)).sum = l.sum / t := by
  induction l with
  | nil => simp
  | cons x xs ih => simp only [List.map_cons, List.sum_cons, ih]; ring

/-- `softmax` with its `let` bindings spelled out. -/
theorem softmax_eq (l : List ℝ) : softmax l =
    (l.map (fun v => Real.exp (v - listMax l))).map
      (fun e => e /
        ((l.map (fun v => Real.exp (v - listMax l))).foldl (· + ·) 0)) := rfl

theorem foldl_max_add (c : ℝ) : ∀ (xs : List ℝ) (x : ℝ),
    (xs.map (fun v => v + c)).foldl max (x + c) = xs.foldl max x + c := by
  intro xs
  induction xs with
  | nil => intro x; simp
  | cons y ys ih =>
    intro x
    simp only [List.map_cons, List.foldl_cons]
    rw [max_add_add_right]
    exact ih (max x y)

theorem listMax_map_add (l : List ℝ) (c : ℝ) (hne : l ≠ []) :
    listMax (l.map (fun v => v + c)) = listMax l + c := by
  cases l with
  | nil => exact absurd rfl hne
  | cons x xs =>
    simp only [List.map_cons, listMax]
    exact foldl_max_add c xs x

/-- C3: on a non-empty logit list, `softmax` returns a list of the same
length whose entries are all non-negative and whose entries sum to exactly
1 (in real arithmetic). -/
theorem c3_softmax_simplex (l : List ℝ) (hne : l ≠ []) :
    (softmax l).length = l.length ∧
    (∀ x ∈ softmax l, 0 ≤ x) ∧ (softmax l).sum = 1 := by
  rw [softmax_eq]
  set exps := l.map (fun v => Real.exp (v - listMax l)) with hexps
  have hexpne : exps ≠ [] := by
    rw [hexps]
    intro h
    exact hne (List.map_eq_nil_iff.mp h)
  have hpos : ∀ x ∈ exps, 0 < x := by
    intro x hx
    rw [hexps] at hx
    obtain ⟨v, _, rfl⟩ := List.mem_map.mp hx
    exact Real.exp_pos _
  have htpos : 0 < exps.sum := List.sum_pos exps hpos hexpne
  have hfold : exps.foldl (· + ·) 0 = exps.sum := by
    rw [foldl_add_eq]; ring
  refine ⟨by simp [hexps], ?_, ?_⟩
  · intro x hx
    obtain ⟨e, he, rfl⟩ := List.mem_map.mp hx
    rw [hfold]
    exact div_nonneg (le_of_lt (hpos e he)) (le_of_lt htpos)
  · rw [hfold, sum_map_div, div_self (ne_of_gt htpos)]

/-- Witness for C3 at the concrete logit list `[0]`. -/
theorem c3_softmax_simplex_witness :
    ([(0 : ℝ)] ≠ []) ∧
    ((softmax [(0 : ℝ)]).length = [(0 : ℝ)].length ∧
      (∀ x ∈ softmax [(0 : ℝ)], 0 ≤ x) ∧ (softmax [(0 : ℝ)]).sum = 1) :=
  ⟨by simp, c3_softmax_simplex [(0 : ℝ)] (by simp)⟩

/-- C9: adding the same constant `c` to every logit leaves the `softmax`
output unchanged (made exact by the subtract-the-maximum step). -/
theorem c9_softmax_shift_invariance (l : List ℝ) (c : ℝ) (hne : l ≠ []) :
    softmax (l.map (fun v => v + c)) = softmax l := by
  rw [softmax_eq, softmax_eq, listMax_map_add l c hne]
  have hexps : (l.map (fun v => v + c)).map
      (fun v => Real.exp (v - (listMax l + c))) =
      l.map (fun v => Real.exp (v - listMax l)) := by
    rw [List.map_map]
    apply List.map_congr_left
    intro a _
    simp only [Function.comp_apply]
    congr 1
    ring
  rw [hexps]

/-- Witness for C9 at the concrete logit list `[1, 2]` with shift `c = 3`. -/
theorem c9_softmax_shift_invariance_witness :
    ([(1 : ℝ), 2] ≠ []) ∧
    softmax ([(1 : ℝ), 2].map (fun v => v + 3)) = softmax [(1 : ℝ), 2] :=
  ⟨by simp, c9_softmax_shift_invariance [(1 : ℝ), 2] 3 (by simp)⟩

/-! Lemmas about the position-by-position forward run. -/

theorem forwardRun_length (par : GPTParams) (tokens : List Nat) :
    ∀ (fuel pos : Nat) (caches : List KVCache),
      (forwardRun par tokens fuel pos caches).length = fuel := by
  intro fuel
  induction fuel with
  | zero => intro pos caches; rfl
  | succ fuel ih =>
    intro pos caches
    simp only [forwardRun, List.length_cons, ih]

/-- Two runs over token sequences that agree on positions `pos … pos + q`
produce the same record at index `q`: the forward pass reads only the
current token, the position and the threaded caches. -/
theorem forwardRun_agree (par : GPTParams) (s1 s2 : List Nat) :
    ∀ (q k1 k2 pos : Nat) (caches : List KVCache), q < k1 → q < k2 →
      (∀ j, j ≤ q → s1.getD (pos + j) 0 = s2.getD (pos + j) 0) →
      (forwardRun par s1 k1 pos caches)[q]? =
        (forwardRun par s2 k2 pos caches)[q]? := by
  intro q
  induction q with
  | zero =>
    intro k1 k2 pos caches h1 h2 hag
    obtain ⟨f1, rfl⟩ : ∃ m, k1 = m + 1 := ⟨k1 - 1, by omega⟩
    obtain ⟨f2, rfl⟩ : ∃ m, k2 = m + 1 := ⟨k2 - 1, by omega⟩
    have ht : s1.getD pos 0 = s2.getD pos 0 := by
      simpa using hag 0 (le_refl 0)
    simp only [forwardRun, List.getElem?_cons_zero]
    rw [ht]
  | succ q ih =>
    intro k1 k2 pos caches h1 h2 hag
    obtain ⟨f1, rfl⟩ : ∃ m, k1 = m + 1 := ⟨k1 - 1, by omega⟩
    obtain ⟨f2, rfl⟩ : ∃ m, k2 = m + 1 := ⟨k2 - 1, by omega⟩
    have ht : s1.getD pos 0 = s2.getD pos 0 := by
      simpa using hag 0 (Nat.zero_le _)
    simp only [forwardRun, List.getElem?_cons_succ]
    rw [ht]
    apply ih f1 f2 (pos + 1) _ (by omega) (by omega)
    intro j hj
    have := hag (j + 1) (by omega)
    rwa [show pos + (j + 1) = pos + 1 + j by omega] at this

/-- C2: two token sequences that differ only at position `p`, fed
position-by-position from fresh caches, give identical logits and identical
cache contents at every position `q < p` (causal masking: no future token
influences an earlier position). -/
theorem c2_causal_masking (par : GPTParams) (s1 s2 : List Nat) (p : Nat)
    (hag : ∀ i, i ≠ p → s1[i]? = s2[i]?) :
    ∀ q, q < p → (runSeq par s1)[q]? = (runSeq par s2)[q]? := by
  intro q hq
  by_cases hq1 : q < s1.length
  · have hq2 : q < s2.length := by
      have hgq := hag q (by omega)
      rw [List.getElem?_eq_getElem hq1] at hgq
      by_contra hn
      rw [List.getElem?_eq_none (Nat.le_of_not_lt hn)] at hgq
      cases hgq
    unfold runSeq
    apply forwardRun_agree par s1 s2 q _ _ 0 _ hq1 hq2
    intro j hj
    have hjq := hag j (by omega)
    simp only [Nat.zero_add]
    rw [List.getD_eq_getElem?_getD, List.getD_eq_getElem?_getD, hjq]
  · have hq2 : ¬ q < s2.length := by
      intro hn
      have hgq := hag q (by omega)
      rw [List.getElem?_eq_none (Nat.le_of_not_lt hq1),
        List.getElem?_eq_getElem hn] at hgq
      cases hgq
    have hl1 : (runSeq par s1).length = s1.length :=
      forwardRun_length par s1 s1.length 0 (freshCaches par)
    have hl2 : (runSeq par s2).length = s2.length :=
      forwardRun_length par s2 s2.length 0 (freshCaches par)
    rw [List.getElem?_eq_none (by omega), List.getElem?_eq_none (by omega)]

/-- Witness for C2: a tiny parameter set and the sequences `[0, 1, 2]` and
`[0, 1, 3]`, which differ only at position 2; the records at position 1
coincide. -/
theorem c2_causal_masking_witness :
    (∀ i : Nat, i ≠ 2 → (([0, 1, 2] : List Nat))[i]? = (([0, 1, 3] : List Nat))[i]?) ∧
    1 < 2 ∧
    (runSeq (⟨[[1]], [[1]], [⟨[[1]], [[1]], [[1]], [[1]], [[1]], [[1]]⟩], [[1]]⟩ :
      GPTParams) [0, 1, 2])[1]? =
    (runSeq (⟨[[1]], [[1]], [⟨[[1]], [[1]], [[1]], [[1]], [[1]], [[1]]⟩], [[1]]⟩ :
      GPTParams) [0, 1, 3])[1]? :=
  have hag : ∀ i : Nat, i ≠ 2 →
      (([0, 1, 2] : List Nat))[i]? = (([0, 1, 3] : List Nat))[i]? := fun i hi =>
    match i, hi with
    | 0, _ => rfl
    | 1, _ => rfl
    | 2, hi => absurd rfl hi
    | (_ + 3), _ => rfl
  ⟨hag, by decide,
    c2_causal_masking
      (⟨[[1]], [[1]], [⟨[[1]], [[1]], [[1]], [[1]], [[1]], [[1]]⟩], [[1]]⟩ : GPTParams)
      [0, 1, 2] [0, 1, 3] 2 hag 1 (by decide)⟩

/-! Lemmas about KV-cache growth. -/

theorem runLayers_cacheLens :
    ∀ (lps : List LayerParams) (caches : List KVCache) (x : List ℝ),
      caches.length = lps.length →
      cacheLens (runLayers lps caches x).2 =
        (cacheLens caches).map (fun ab => (ab.1 + 1, ab.2 + 1)) := by
  intro lps
  induction lps with
  | nil =>
    intro caches x h
    cases caches with
    | nil => rfl
    | cons c cs => simp at h
  | cons lp lps ih =>
    intro caches x h
    cases caches with
    | nil => simp at h
    | cons c cs =>
      have hrl : runLayers (lp :: lps) (c :: cs) x =
          ((runLayers lps cs (gptLayer lp x c).1).1,
            (gptLayer lp x c).2 :: (runLayers lps cs (gptLayer lp x c).1).2) := rfl
      have hkeys : (gptLayer lp x c).2.keys =
          c.keys ++ [linear (rmsnorm x) lp.wk] := rfl
      have hvals : (gptLayer lp x c).2.values =
          c.values ++ [linear (rmsnorm x) lp.wv] := rfl
      rw [hrl]
      simp only [cacheLens, List.map_cons]
      refine List.cons_eq_cons.mpr ⟨?_, ?_⟩
      · rw [hkeys, hvals]
        simp
      · have hlen : cs.length = lps.length := by simpa using h
        exact ih cs (gptLayer lp x c).1 hlen

theorem gpt_cacheLens (par : GPTParams) (t pos : Nat) (caches : List KVCache)
    (h : caches.length = par.layers.length) :
    cacheLens (gpt par t pos caches).2 =
      (cacheLens caches).map (fun ab => (ab.1 + 1, ab.2 + 1)) := by
  have hg : (gpt par t pos caches).2 =
      (runLayers par.layers caches
        (rmsnorm (List.zipWith (fun a b => a + b)
          (par.wte.getD t []) (par.wpe.getD pos [])))).2 := rfl
  rw [hg]
  exact runLayers_cacheLens par.layers caches _ h

theorem forwardRun_cacheLens (par : GPTParams) (tokens : List Nat) :
    ∀ (q fuel pos m : Nat) (caches : List KVCache), q < fuel →
      caches.length = par.layers.length →
      cacheLens caches = List.replicate par.layers.length (m, m) →
      ((forwardRun par tokens fuel pos caches)[q]?).map (fun pr => cacheLens pr.2) =
        some (List.replicate par.layers.length (m + q + 1, m + q + 1)) := by
  intro q
  induction q with
  | zero =>
    intro fuel pos m caches hq hlen hcl
    obtain ⟨f, rfl⟩ : ∃ f, fuel = f + 1 := ⟨fuel - 1, by omega⟩
    simp only [forwardRun, List.getElem?_cons_zero, Option.map_some']
    rw [gpt_cacheLens par _ pos caches hlen, hcl]
    simp [List.map_replicate]
  | succ q ih =>
    intro fuel pos m caches hq hlen hcl
    obtain ⟨f, rfl⟩ : ∃ f, fuel = f + 1 := ⟨fuel - 1, by omega⟩
    simp only [forwardRun, List.getElem?_cons_succ]
    have hcl2 : cacheLens (gpt par (tokens.getD pos 0) pos caches).2 =
        List.replicate par.layers.length (m + 1, m + 1) := by
      rw [gpt_cacheLens par _ pos caches hlen, hcl]
      simp [List.map_replicate]
    have hlen2 : (gpt par (tokens.getD pos 0) pos caches).2.length =
        par.layers.length := by
      have := congrArg List.length hcl2
      simpa [cacheLens] using this
    have hrec := ih f (pos + 1) (m + 1) _ (by omega) hlen2 hcl2
    rwa [show m + 1 + q + 1 = m + (q + 1) + 1 by omega] at hrec

/-- C7: a fresh sequence starts with every layer's key and value caches of
length 0, and after processing position `q` (so `q + 1` positions in total)
every layer's key cache and value cache have length exactly `q + 1`: each
forward call appends exactly one entry per layer to each cache. -/
theorem c7_kv_cache_growth (par : GPTParams) (tokens : List Nat) (q : Nat)
    (hq : q < tokens.length) :
    cacheLens (freshCaches par) = List.replicate par.layers.length (0, 0) ∧
    ((runSeq par tokens)[q]?).map (fun pr => cacheLens pr.2) =
      some (List.replicate par.layers.length (q + 1, q + 1)) := by
  have hfresh : cacheLens (freshCaches par) =
      List.replicate par.layers.length (0, 0) := by
    unfold freshCaches cacheLens
    rw [List.map_map]
    exact List.map_const' par.layers ((0 : Nat), (0 : Nat))
  refine ⟨hfresh, ?_⟩
  unfold runSeq
  have hrun := forwardRun_cacheLens par tokens q tokens.length 0 0
    (freshCaches par) hq (by unfold freshCaches; simp) hfresh
  simpa using hrun

/-- Witness for C7: a one-layer parameter set and the token list `[0, 1]`;
after position 1 both caches of the single layer have length 2. -/
theorem c7_kv_cache_growth_witness :
    1 < ([0, 1] : List Nat).length ∧
    (cacheLens (freshCaches
      (⟨[[2]], [[2]], [⟨[[2]], [[2]], [[2]], [[2]], [[2]], [[2]]⟩], [[2]]⟩ :
        GPTParams)) =
      List.replicate 1 (0, 0) ∧
    ((runSeq (⟨[[2]], [[2]], [⟨[[2]], [[2]], [[2]], [[2]], [[2]], [[2]]⟩], [[2]]⟩ :
      GPTParams) [0, 1])[1]?).map (fun pr => cacheLens pr.2) =
      some (List.replicate 1 (2, 2))) :=
  ⟨by decide,
    c7_kv_cache_growth
      (⟨[[2]], [[2]], [⟨[[2]], [[2]], [[2]], [[2]], [[2]], [[2]]⟩], [[2]]⟩ : GPTParams)
      [0, 1] 1 (by decide)⟩

/-! Lemmas about the training-step loss list. -/

theorem lossLoop_length (par : GPTParams) (tokens : List Nat) :
    ∀ (fuel pos : Nat) (caches : List KVCache),
      (lossLoop par tokens fuel pos caches).length = fuel := by
  intro fuel
  induction fuel with
  | zero => intro pos caches; rfl
  | succ fuel ih =>
    intro pos caches
    simp only [lossLoop, List.length_cons, ih]

/-- The `p`-th per-position loss is the cross-entropy of the `p`-th forward
record of the same run: `-log((softmax logits_p)[tokens[pos + p + 1]])`. -/
theorem lossLoop_getElem (par : GPTParams) (tokens : List Nat) :
    ∀ (p fuel pos : Nat) (caches : List KVCache), p < fuel →
      (lossLoop par tokens fuel pos caches)[p]? =
        ((forwardRun par tokens fuel pos caches)[p]?).map
          (fun pr => 0 - Real.log
            ((softmax pr.1).getD (tokens.getD (pos + p + 1) 0) 0)) := by
  intro p
  induction p with
  | zero =>
    intro fuel pos caches hp
    obtain ⟨f, rfl⟩ : ∃ f, fuel = f + 1 := ⟨fuel - 1, by omega⟩
    simp only [lossLoop, forwardRun, List.getElem?_cons_zero, Option.map_some']
  | succ p ih =>
    intro fuel pos caches hp
    obtain ⟨f, rfl⟩ : ∃ f, fuel = f + 1 := ⟨fuel - 1, by omega⟩
    simp only [lossLoop, forwardRun, List.getElem?_cons_succ]
    rw [ih f (pos + 1) _ (by omega)]
    rw [show pos + 1 + p + 1 = pos + (p + 1) + 1 by omega]

/-- C6: one training step on a (BOS-framed) token list of length at least 2
computes exactly `n = min(BLOCK_SIZE, length - 1)` per-position losses; the
loss at position `p` is the negative natural log of the softmax probability
assigned to `tokens[p + 1]` in that position's forward record; and the
scalar handed to `backward()` is the sum of the losses divided by `n`. -/
theorem c6_training_loss (par : GPTParams) (tokens : List Nat)
    (_hlen : 2 ≤ tokens.length) :
    (trainLosses par tokens).length = min BLOCK_SIZE (tokens.length - 1) ∧
    (∀ p, p < min BLOCK_SIZE (tokens.length - 1) →
      (trainLosses par tokens)[p]? =
        ((trainRun par tokens)[p]?).map
          (fun pr => 0 - Real.log
            ((softmax pr.1).getD (tokens.getD (p + 1) 0) 0))) ∧
    trainLoss par tokens = (trainLosses par tokens).sum /
      ((min BLOCK_SIZE (tokens.length - 1) : Nat) : ℝ) := by
  refine ⟨lossLoop_length par tokens _ 0 (freshCaches par), ?_, ?_⟩
  · intro p hp
    unfold trainLosses trainRun
    have hrel := lossLoop_getElem par tokens p
      (min BLOCK_SIZE (tokens.length - 1)) 0 (freshCaches par) hp
    simpa using hrel
  · unfold trainLoss
    rw [foldl_add_eq, zero_add]

/-- Witness for C6: a one-layer parameter set and the framed token list
`[2, 0, 2]` of length 3, so `n = min(16, 2) = 2`. -/
theorem c6_training_loss_witness :
    2 ≤ ([2, 0, 2] : List Nat).length ∧
    ((trainLosses (⟨[[1]], [[1]], [⟨[[1]], [[1]], [[1]], [[1]], [[1]], [[1]]⟩], [[1]]⟩ :
        GPTParams) [2, 0, 2]).length = min BLOCK_SIZE (([2, 0, 2] : List Nat).length - 1) ∧
      (∀ p, p < min BLOCK_SIZE (([2, 0, 2] : List Nat).length - 1) →
        (trainLosses (⟨[[1]], [[1]], [⟨[[1]], [[1]], [[1]], [[1]], [[1]], [[1]]⟩], [[1]]⟩ :
          GPTParams) [2, 0, 2])[p]? =
          ((trainRun (⟨[[1]], [[1]], [⟨[[1]], [[1]], [[1]], [[1]], [[1]], [[1]]⟩], [[1]]⟩ :
            GPTParams) [2, 0, 2])[p]?).map
            (fun pr => 0 - Real.log
              ((softmax pr.1).getD (([2, 0, 2] : List Nat).getD (p + 1) 0) 0))) ∧
      trainLoss (⟨[[1]], [[1]], [⟨[[1]], [[1]], [[1]], [[1]], [[1]], [[1]]⟩], [[1]]⟩ :
        GPTParams) [2, 0, 2] =
        (trainLosses (⟨[[1]], [[1]], [⟨[[1]], [[1]], [[1]], [[1]], [[1]], [[1]]⟩], [[1]]⟩ :
          GPTParams) [2, 0, 2]).sum /
          ((min BLOCK_SIZE (([2, 0, 2] : List Nat).length - 1) : Nat) : ℝ)) :=
  ⟨by decide,
    c6_training_loss
      (⟨[[1]], [[1]], [⟨[[1]], [[1]], [[1]], [[1]], [[1]], [[1]]⟩], [[1]]⟩ : GPTParams)
      [2, 0, 2] (by decide)⟩

/-! C4 and C5: the two claims the code contradicts. -/

/-- C4 counterexample: the code's decayed learning rate at the final
training step (1-indexed `t = NUM_STEPS`, loop counter `NUM_STEPS - 1`) is
`LEARNING_RATE / 1000 = 1 / 100000`, not the `0` the claimed formula
`lr_0 * (1 - t / total_steps)` (with 1-indexed `t`) yields there. -/
theorem c4_lr_counterexample :
    lrT (NUM_STEPS - 1) = 1 / 100000 ∧ lrClaimed NUM_STEPS = 0 ∧
    lrT (NUM_STEPS - 1) ≠ lrClaimed NUM_STEPS := by
  unfold lrT lrClaimed NUM_STEPS LEARNING_RATE
  norm_num

/-- C4 amended: at 1-indexed step `t` (so loop counter `t - 1`), the Adam
update bias-corrects with exponent exactly `t`, while its learning-rate
factor uses the 0-indexed counter: `lr = lr_0 * (1 - (t - 1) / total)`,
which equals `lr_0` at the first step and `lr_0 / total` (not 0) at the
final step. -/
theorem c4_adam_amended (t : Nat) (grad mPrev vPrev data : ℝ) (ht : 1 ≤ t) :
    adamUpdate (t - 1) grad mPrev vPrev data =
      adamUpdateAmended t grad mPrev vPrev data ∧
    lrT 0 = LEARNING_RATE ∧
    lrT (NUM_STEPS - 1) = LEARNING_RATE / (NUM_STEPS : ℝ) := by
  refine ⟨?_, ?_, ?_⟩
  · unfold adamUpdate adamUpdateAmended lrT
    rw [Nat.sub_add_cancel ht]
  · unfold lrT
    norm_num
  · unfold lrT NUM_STEPS
    norm_num
    ring

/-- Witness for the amended C4 at the first step `t = 1`. -/
theorem c4_adam_amended_witness :
    1 ≤ 1 ∧
    (adamUpdate (1 - 1) 1 0 0 0 = adamUpdateAmended 1 1 0 0 0 ∧
      lrT 0 = LEARNING_RATE ∧
      lrT (NUM_STEPS - 1) = LEARNING_RATE / (NUM_STEPS : ℝ)) :=
  ⟨by decide, c4_adam_amended 1 1 0 0 0 (by decide)⟩

/-- C5 counterexample: with real symbols `['a', 'b']` the reserved BOS id is
2 while the vocabulary size is 3 — `BOS` is not equal to `vocabSize`. -/
theorem c5_bos_counterexample :
    BOS ['a', 'b'] = 2 ∧ vocabSize ['a', 'b'] = 3 ∧
    BOS ['a', 'b'] ≠ vocabSize ['a', 'b'] :=
  ⟨rfl, rfl, by decide⟩

/-- C5 amended: the BOS id is the number of real symbols — one past the last
real symbol's id — and `vocabSize` counts the real symbols plus the BOS
token itself, so `BOS = vocabSize - 1`, not `vocabSize`. -/
theorem c5_bos_amended (uchars : List Char) :
    BOS uchars + 1 = vocabSize uchars ∧
    BOS uchars = vocabSize uchars - 1 ∧
    BOS uchars = uchars.length := by
  unfold BOS vocabSize
  omega

end MicroGPT
